import Mathlib

/-!
Shallow embedding of the mesh element geometry kernel of fdaPDE
(`src/src/mesh/element.h`), verified over exact arithmetic: the C++ `double`
values are modelled as rationals, and the floating-point Euclidean norms and
square roots appearing in measures and distances as real numbers.
-/

namespace FdaPDE

/-- Points and vectors of the N-dimensional space (`SVector<N>` of
src/utils/symbols.h), entries modelled as exact rationals. -/
abbrev SVector (N : ℕ) := Fin N → ℚ

/-- Statically sized matrices (`SMatrix<m, n>`). -/
abbrev SMatrix (m n : ℕ) := Matrix (Fin m) (Fin n) ℚ

/-- The IEEE-754 double machine epsilon
(`std::numeric_limits<double>::epsilon()`), exactly 2⁻⁵². -/
def eps : ℚ := 1 / 2 ^ 52

/-- Modelled from the spec: `ct_factorial` (defined in src/utils/compile_time.h,
which is not among the provided sources); the spec calls it "the same
compile-time factorial used for node counting", so it is the factorial. -/
def ct_factorial : ℕ → ℕ
  | 0 => 1
  | n + 1 => (n + 1) * ct_factorial n

/-- Number of vertices of an M-dimensional element (`ct_nvertices`). -/
abbrev ct_nvertices (M : ℕ) : ℕ := M + 1

/-- Number of edges of an M-dimensional element (`ct_nedges`). -/
def ct_nedges (M : ℕ) : ℕ := (M * (M + 1)) / 2

/-- Degrees of freedom of an M-dimensional element of degree R (`ct_nnodes`). -/
def ct_nnodes (M R : ℕ) : ℕ := ct_factorial (M + R) / (ct_factorial M * ct_factorial R)

/-- Exact inverse of a square rational matrix, det⁻¹ · adjugate; executable
model of Eigen's `.inverse()` (whose result on a singular input is garbage by
design; here a zero determinant gives the zero matrix, as in Mathlib). -/
def matInv {n : ℕ} (A : SMatrix n n) : SMatrix n n := A.det⁻¹ • A.adjugate

/-- The barycentric matrix built by the `Element` constructor:
`[J_]_ij = (coords_[j+1][i] - coords_[0][i])` (element.h line 110). -/
def jacobianOf {M N : ℕ} (coords : Fin (ct_nvertices M) → SVector N) : SMatrix N M :=
  Matrix.of fun i j => coords j.succ i - coords 0 i

/-- The cached inverse of the barycentric matrix (element.h lines 113-118):
the exact inverse for `N == M`, the generalized Penrose inverse
`(Jᵀ J)⁻¹ Jᵀ` for manifold elements. -/
def invJacobianOf {M N : ℕ} (J : SMatrix N M) : SMatrix M N :=
  if h : N = M then
    (matInv (J.submatrix id (Fin.cast h))).submatrix (Fin.cast h.symm) id
  else
    matInv (J.transpose * J) * J.transpose

/-- Componentwise cross product of two 3-vectors (Eigen's `.cross()`). -/
def crossProd (a b : SVector 3) : SVector 3 :=
  ![a 1 * b 2 - a 2 * b 1, a 2 * b 0 - a 0 * b 2, a 0 * b 1 - a 1 * b 0]

/-- Squared Euclidean norm, exact in ℚ. -/
def vecNormSq {N : ℕ} (v : SVector N) : ℚ := ∑ i, v i ^ 2

/-- Euclidean norm (Eigen's `.norm()`), the floating-point square root
modelled as the real square root. -/
noncomputable def vecNorm {N : ℕ} (v : SVector N) : ℝ := Real.sqrt ((vecNormSq v : ℚ) : ℝ)

/-- Proof auxiliary: the vertices of the reference M-simplex (vertex 0 at the
origin, vertex j+1 at the j-th unit vector), used to factor the barycentric
matrix of a permuted vertex list through that of the original one. -/
def stdVerts {M : ℕ} : Fin (M + 1) → SVector M := fun p j => if j.succ = p then 1 else 0

/-- Proof auxiliary: the (M+1)×(M+1) matrix bordering the vertex list with a
column of ones; its determinant is the determinant of the barycentric matrix
and is alternating in the vertices. -/
def Bmat {m : ℕ} (v : Fin (m + 1) → SVector m) : Matrix (Fin (m + 1)) (Fin (m + 1)) ℚ :=
  Matrix.of fun i => Fin.cons 1 (v i)

/-- Proof auxiliary: the bordered matrix after subtracting row 0 from every
other row, so that its first column is the first standard basis vector. -/
def BmatRed {m : ℕ} (v : Fin (m + 1) → SVector m) : Matrix (Fin (m + 1)) (Fin (m + 1)) ℚ :=
  Matrix.of fun i j => Bmat v i j + (Fin.cases 0 (fun _ => -1) i : ℚ) * Bmat v 0 j

/-- Interpretation of a rational SVector in the real Euclidean space, used to
state norms independently of the executable `vecNorm`. -/
noncomputable def toEuc {N : ℕ} (v : SVector N) : EuclideanSpace ℝ (Fin N) :=
  (WithLp.equiv 2 (∀ _ : Fin N, ℝ)).symm fun i => (v i : ℝ)

/-- The element measure computed by the constructor (element.h lines 119-127):
`|det J| / M!` for volume elements, half the cross-product norm for surface
elements (M = 2, N = 3; for M = 2 and other N the C++ `.cross()` call does not
compile, so no such instantiation exists and the default 0 stays), the column
norm for network elements (M = 1 < N), and the default 0 otherwise. -/
noncomputable def measureOf {M N : ℕ} (J : SMatrix N M) : ℝ :=
  if h : M = N then
    ((|(J.submatrix (Fin.cast h) id).det| / (ct_factorial M : ℚ) : ℚ) : ℝ)
  else if h2 : M = 2 then
    if h3 : N = 3 then
      (1 / 2 : ℝ) * vecNorm (crossProd
        (fun i => J.submatrix (Fin.cast h3.symm) (Fin.cast h2.symm) i 0)
        (fun i => J.submatrix (Fin.cast h3.symm) (Fin.cast h2.symm) i 1))
    else 0
  else if h1 : M = 1 then
    vecNorm (fun i => J i (Fin.cast h1.symm 0))
  else 0

/-- A single mesh element (`Element<M, N, R>`); the order R plays no role in
the geometric kernel, so it is not carried. Fields mirror element.h lines
50-61; `measure_`, `J_` and `inv_J_` are the cached derived quantities. -/
structure Element (M N : ℕ) where
  ID_ : ℕ
  node_ids_ : Fin (ct_nvertices M) → ℕ
  coords_ : Fin (ct_nvertices M) → SVector N
  neighbors_ : List ℤ
  boundary_ : Bool
  measure_ : ℝ
  J_ : SMatrix N M
  inv_J_ : SMatrix M N

/-- The `Element` constructor (element.h lines 102-128): stores its arguments
and precomputes the barycentric matrix, its (pseudo-)inverse and the measure;
none of these cached fields is ever recomputed afterwards (the object is
immutable, every later query is a read). -/
noncomputable def mkElement {M N : ℕ} (ID : ℕ) (node_ids : Fin (ct_nvertices M) → ℕ)
    (coords : Fin (ct_nvertices M) → SVector N) (neighbors : List ℤ) (boundary : Bool) :
    Element M N where
  ID_ := ID
  node_ids_ := node_ids
  coords_ := coords
  neighbors_ := neighbors
  boundary_ := boundary
  measure_ := measureOf (jacobianOf coords)
  J_ := jacobianOf coords
  inv_J_ := invJacobianOf (jacobianOf coords)

/-- The getter `measure()` (element.h line 81). -/
noncomputable def Element.measure {M N : ℕ} (e : Element M N) : ℝ := e.measure_

/-- The getter `ID()` (element.h line 77): it is declared to return
`unsigned int` while the stored `ID_` is a `std::size_t`; on the usual
LP64/LLP64 platforms (32-bit `unsigned int`) the returned value is the stored
identifier reduced modulo 2³². -/
def Element.ID {M N : ℕ} (e : Element M N) : ℕ := e.ID_ % 2 ^ 32

/-- Modelled from the spec: `VectorSpace<M, N>` (defined in
src/linear_algebra/vector_space.h, which is not among the provided sources):
"given M+1 points in N-space, represents the affine subspace they span;
supplies a point-to-subspace Euclidean distance query". Held as the basis of
M direction vectors plus the offset point it is constructed from. -/
structure VectorSpace (M N : ℕ) where
  basis : Fin M → SVector N
  offset : SVector N

/-- Modelled from the spec: the squared Euclidean distance from `x` to the
affine subspace (vector_space.h is not among the provided sources): the
squared norm of the residual of the orthogonal (least-squares) projection of
`x - offset` onto the span of the basis. Kept squared so that it stays in ℚ
and remains executable; the distance itself is its real square root. -/
def VectorSpace.distanceSq {M N : ℕ} (vs : VectorSpace M N) (x : SVector N) : ℚ :=
  let B : SMatrix N M := Matrix.of fun i j => vs.basis j i
  let r : SVector N := x - vs.offset
  vecNormSq (r - B.mulVec ((matInv (B.transpose * B)).mulVec (B.transpose.mulVec r)))

/-- The Euclidean point-to-subspace distance offered by `VectorSpace`. -/
noncomputable def VectorSpace.distance {M N : ℕ} (vs : VectorSpace M N) (x : SVector N) : ℝ :=
  Real.sqrt ((vs.distanceSq x : ℚ) : ℝ)

/-- `spanned_space()` (element.h lines 174-179): the affine space through the
element, with basis `coords_[i+1] - coords_[0]` anchored at `coords_[0]`. -/
def Element.spanned_space {M N : ℕ} (e : Element M N) : VectorSpace M N :=
  { basis := fun i => e.coords_ i.succ - e.coords_ 0, offset := e.coords_ 0 }

/-- `to_barycentric_coords(x)` (element.h lines 130-138): solve
`z = inv_J_ · (x - coords_[0])` and return `[1 - sum(z), z]`. -/
def Element.to_barycentric_coords {M N : ℕ} (e : Element M N) (x : SVector N) :
    SVector (M + 1) :=
  let z : SVector M := e.inv_J_.mulVec (x - e.coords_ 0)
  Fin.cons (1 - ∑ i, z i) z

/-- `mid_point()` (element.h lines 140-146): the barycentric point with all
coordinates 1/(M+1) mapped back to the cartesian system. -/
def Element.mid_point {M N : ℕ} (e : Element M N) : SVector N :=
  e.J_.mulVec (fun _ => 1 / ((M : ℚ) + 1)) + e.coords_ 0

/-- The non-manifold `contains()` overload (element.h lines 167-172), enabled
only when `N == M`: true iff every barycentric coordinate is ≥ -10·eps. -/
def Element.contains_volume {M : ℕ} (e : Element M M) (x : SVector M) : Bool :=
  decide (∀ i, -10 * eps ≤ e.to_barycentric_coords x i)

/-- The manifold `contains()` overload (element.h lines 182-192): reject when
the distance from the spanned space exceeds 10·eps, otherwise test the
barycentric coordinates. The floating-point comparison
`vs.distance(x) > 10 * eps` is carried out on the exact squares (both sides
are nonnegative, so the tests agree). -/
def Element.contains_manifold {M N : ℕ} (e : Element M N) (x : SVector N) : Bool :=
  if (10 * eps) ^ 2 < e.spanned_space.distanceSq x then false
  else decide (∀ i, -10 * eps ≤ e.to_barycentric_coords x i)

/-! Concrete data used to witness the theorems with hypotheses: the unit
triangle as a volume element (M = N = 2), the same triangle embedded in
3-space (M = 2, N = 3), and a segment in the plane (M = 1, N = 2). -/

/-- Vertices (0,0), (1,0), (0,1) of the unit triangle. -/
def coordsTri : Fin 3 → SVector 2 := ![![0, 0], ![1, 0], ![0, 1]]

/-- The unit triangle as a volume element. -/
noncomputable def triElement : Element 2 2 := mkElement 7 (fun _ => 0) coordsTri [] false

/-- Vertices (0,0,0), (1,0,0), (0,1,0) of a surface triangle in 3-space. -/
def coordsSurf : Fin 3 → SVector 3 := ![![0, 0, 0], ![1, 0, 0], ![0, 1, 0]]

/-- The surface triangle as a manifold element. -/
noncomputable def surfElement : Element 2 3 := mkElement 3 (fun _ => 0) coordsSurf [] true

/-- Vertices (0,0), (2,0) of a network segment in the plane. -/
def coordsSeg : Fin 2 → SVector 2 := ![![0, 0], ![2, 0]]

/-- The segment as a manifold (network) element. -/
noncomputable def segElement : Element 1 2 := mkElement 5 (fun _ => 0) coordsSeg [] false

/-! General lemmas about the embedded operations. -/

theorem matInv_eq_inv {n : ℕ} (A : SMatrix n n) : matInv A = A⁻¹ := by
  rw [Matrix.inv_def, matInv, Ring.inverse_eq_inv']

theorem fin_cast_eq_id {n : ℕ} (h : n = n) : (Fin.cast h : Fin n → Fin n) = id := by
  funext i
  rfl

@[simp] theorem mkElement_ID {M N : ℕ} (ID nids coords nbrs bdry) :
    (mkElement (M := M) (N := N) ID nids coords nbrs bdry).ID_ = ID := rfl

@[simp] theorem mkElement_coords {M N : ℕ} (ID nids coords nbrs bdry) :
    (mkElement (M := M) (N := N) ID nids coords nbrs bdry).coords_ = coords := rfl

@[simp] theorem mkElement_J {M N : ℕ} (ID nids coords nbrs bdry) :
    (mkElement (M := M) (N := N) ID nids coords nbrs bdry).J_ = jacobianOf coords := rfl

@[simp] theorem mkElement_invJ {M N : ℕ} (ID nids coords nbrs bdry) :
    (mkElement (M := M) (N := N) ID nids coords nbrs bdry).inv_J_ =
      invJacobianOf (jacobianOf coords) := rfl

@[simp] theorem mkElement_measure {M N : ℕ} (ID nids coords nbrs bdry) :
    (mkElement (M := M) (N := N) ID nids coords nbrs bdry).measure_ =
      measureOf (jacobianOf coords) := rfl

/-- On a square matrix the constructor takes the exact-inverse branch. -/
theorem invJacobianOf_square {M : ℕ} (J : SMatrix M M) : invJacobianOf J = matInv J := by
  unfold invJacobianOf
  rw [dif_pos rfl, fin_cast_eq_id]
  simp

/-- On a rectangular matrix the constructor takes the pseudo-inverse branch. -/
theorem invJacobianOf_manifold {M N : ℕ} (h : N ≠ M) (J : SMatrix N M) :
    invJacobianOf J = matInv (J.transpose * J) * J.transpose := by
  unfold invJacobianOf
  rw [dif_neg h]

theorem measureOf_square {M : ℕ} (J : SMatrix M M) :
    measureOf J = ((|J.det| / (ct_factorial M : ℚ) : ℚ) : ℝ) := by
  unfold measureOf
  rw [dif_pos rfl, fin_cast_eq_id, Matrix.submatrix_id_id]

theorem ct_factorial_eq (n : ℕ) : ct_factorial n = Nat.factorial n := by
  induction n with
  | zero => rfl
  | succ k ih => simp [ct_factorial, Nat.factorial, ih]

theorem vecNorm_nonneg {N : ℕ} (v : SVector N) : 0 ≤ vecNorm v := Real.sqrt_nonneg _

/-- The executable rational norm agrees with the Euclidean norm of the real
interpretation. -/
theorem vecNorm_eq_norm_toEuc {N : ℕ} (v : SVector N) : vecNorm v = ‖toEuc v‖ := by
  rw [EuclideanSpace.norm_eq, vecNorm, vecNormSq]
  congr 1
  push_cast
  refine Finset.sum_congr rfl fun i _ => ?_
  rw [toEuc, WithLp.equiv_symm_pi_apply, Real.norm_eq_abs, sq_abs]

/-- The componentwise cross product of element.h is Mathlib's cross product. -/
theorem crossProd_eq_crossProduct (a b : SVector 3) : crossProd a b = crossProduct a b :=
  (cross_apply a b).symm

theorem measureOf_surface (J : SMatrix 3 2) :
    measureOf J = (1 / 2 : ℝ) * vecNorm (crossProd (fun i => J i 0) (fun i => J i 1)) := by
  unfold measureOf
  rw [dif_neg (by omega), dif_pos rfl, dif_pos rfl, fin_cast_eq_id]
  simp

theorem measureOf_segment {N : ℕ} (h : 1 ≠ N) (J : SMatrix N 1) :
    measureOf J = vecNorm (fun i => J i 0) := by
  unfold measureOf
  rw [dif_neg h, dif_neg (by omega), dif_pos rfl, fin_cast_eq_id]
  simp

theorem measureOf_default2 {N : ℕ} (h : (2 : ℕ) ≠ N) (h3 : N ≠ 3) (J : SMatrix N 2) :
    measureOf J = 0 := by
  unfold measureOf
  rw [dif_neg h, dif_pos rfl, dif_neg h3]

theorem measureOf_default {M N : ℕ} (h : M ≠ N) (h2 : M ≠ 2) (h1 : M ≠ 1) (J : SMatrix N M) :
    measureOf J = 0 := by
  unfold measureOf
  rw [dif_neg h, dif_neg h2, dif_neg h1]

/-- Permuting the vertex list permutes the rows of the bordered matrix. -/
theorem Bmat_perm {m : ℕ} (v : Fin (m + 1) → SVector m) (σ : Equiv.Perm (Fin (m + 1))) :
    Bmat (fun i => v (σ i)) = (Bmat v).submatrix σ id := rfl

/-- The bordered determinant equals the barycentric-matrix determinant:
subtract row 0 from every other row and expand along the first column. -/
theorem det_BmatRed {m : ℕ} (v : Fin (m + 1) → SVector m) :
    (BmatRed v).det = (Bmat v).det := by
  refine Matrix.det_eq_of_forall_row_eq_smul_add_const
    (fun i => Fin.cases (0 : ℚ) (fun _ => (-1 : ℚ)) i) 0 ?_ ?_
  · simp
  · intro i j
    rfl

theorem BmatRed_zero_zero {m : ℕ} (v : Fin (m + 1) → SVector m) : BmatRed v 0 0 = 1 := by
  norm_num [BmatRed, Bmat]

theorem BmatRed_succ_zero {m : ℕ} (v : Fin (m + 1) → SVector m) (l : Fin m) :
    BmatRed v l.succ 0 = 0 := by
  norm_num [BmatRed, Bmat]

theorem BmatRed_submatrix {m : ℕ} (v : Fin (m + 1) → SVector m) :
    (BmatRed v).submatrix Fin.succ Fin.succ = (jacobianOf v).transpose := by
  funext i j
  simp [BmatRed, Bmat, jacobianOf]
  ring

theorem det_Bmat {m : ℕ} (v : Fin (m + 1) → SVector m) :
    (Bmat v).det = (jacobianOf v).det := by
  rw [← det_BmatRed, Matrix.det_succ_column_zero, Fin.sum_univ_succ]
  rw [Finset.sum_eq_zero fun l hl => by rw [BmatRed_succ_zero]; ring]
  rw [BmatRed_zero_zero, Fin.succAbove_zero, BmatRed_submatrix, Matrix.det_transpose]
  simp

/-- Permuting the vertices multiplies the barycentric determinant by the sign
of the permutation. -/
theorem det_jacobian_perm {m : ℕ} (v : Fin (m + 1) → SVector m)
    (σ : Equiv.Perm (Fin (m + 1))) :
    (jacobianOf fun i => v (σ i)).det = Equiv.Perm.sign σ * (jacobianOf v).det := by
  rw [← det_Bmat, ← det_Bmat, Bmat_perm, Matrix.det_permute]

theorem abs_det_jacobian_perm {m : ℕ} (v : Fin (m + 1) → SVector m)
    (σ : Equiv.Perm (Fin (m + 1))) :
    |(jacobianOf fun i => v (σ i)).det| = |(jacobianOf v).det| := by
  rw [det_jacobian_perm, abs_mul]
  rcases Int.units_eq_one_or (Equiv.Perm.sign σ) with h | h <;> rw [h] <;> norm_num

/-- The reference simplex has the identity as barycentric matrix. -/
theorem jacobianOf_stdVerts {M : ℕ} : jacobianOf (stdVerts (M := M)) = 1 := by
  funext i j
  simp [jacobianOf, stdVerts, Matrix.one_apply, Fin.succ_inj, Fin.succ_ne_zero, eq_comm]

theorem det_T_sq {M : ℕ} (σ : Equiv.Perm (Fin (M + 1))) :
    (jacobianOf fun i => stdVerts (M := M) (σ i)).det ^ 2 = 1 := by
  rw [det_jacobian_perm, jacobianOf_stdVerts, Matrix.det_one, mul_one]
  rcases Int.units_eq_one_or (Equiv.Perm.sign σ) with h | h <;> rw [h] <;> norm_num

/-- The barycentric matrix of a permuted vertex list factors through the one
of the original list via the permuted reference simplex. -/
theorem jacobian_comp {M N : ℕ} (coords : Fin (M + 1) → SVector N)
    (σ : Equiv.Perm (Fin (M + 1))) :
    jacobianOf (fun i => coords (σ i)) =
      jacobianOf coords * jacobianOf (fun i => stdVerts (σ i)) := by
  have key : ∀ (i : Fin N) (p : Fin (M + 1)),
      (∑ j, (coords j.succ i - coords 0 i) * stdVerts p j) = coords p i - coords 0 i := by
    intro i p
    refine Fin.cases ?_ ?_ p
    · simp [stdVerts, Fin.succ_ne_zero]
    · intro q
      simp only [stdVerts, Fin.succ_inj, mul_ite, mul_one, mul_zero]
      rw [Finset.sum_ite_eq' Finset.univ q]
      simp
  funext i k
  rw [Matrix.mul_apply]
  simp only [jacobianOf, Matrix.of_apply]
  simp only [mul_sub]
  rw [Finset.sum_sub_distrib, key i (σ k.succ), key i (σ 0)]
  ring

/-- The Gram determinant of the barycentric matrix is invariant under
permutations of the vertex list. -/
theorem gram_det_perm {M N : ℕ} (coords : Fin (M + 1) → SVector N)
    (σ : Equiv.Perm (Fin (M + 1))) :
    ((jacobianOf fun i => coords (σ i)).transpose * (jacobianOf fun i => coords (σ i))).det =
      ((jacobianOf coords).transpose * jacobianOf coords).det := by
  rw [jacobian_comp coords σ, Matrix.transpose_mul]
  rw [Matrix.mul_assoc, ← Matrix.mul_assoc ((jacobianOf coords).transpose) (jacobianOf coords)]
  rw [Matrix.det_mul, Matrix.det_mul, Matrix.det_transpose]
  rw [show (jacobianOf fun i => stdVerts (M := M) (σ i)).det *
      (((jacobianOf coords).transpose * jacobianOf coords).det *
        (jacobianOf fun i => stdVerts (M := M) (σ i)).det) =
      ((jacobianOf coords).transpose * jacobianOf coords).det *
        (jacobianOf fun i => stdVerts (M := M) (σ i)).det ^ 2 from by ring]
  rw [det_T_sq, mul_one]

/-- Lagrange identity in 3-space: the squared cross-product norm of the two
columns is the Gram determinant. -/
theorem crossNormSq_eq_gram_det (J : SMatrix 3 2) :
    vecNormSq (crossProd (fun i => J i 0) (fun i => J i 1)) = (J.transpose * J).det := by
  rw [Matrix.det_fin_two]
  simp [vecNormSq, crossProd, Matrix.mul_apply, Fin.sum_univ_three, Fin.sum_univ_succ]
  ring

/-- In the one-column case the squared norm is the Gram determinant. -/
theorem colNormSq_eq_gram_det {N : ℕ} (J : SMatrix N 1) :
    vecNormSq (fun i => J i 0) = (J.transpose * J).det := by
  rw [Matrix.det_fin_one]
  simp [vecNormSq, Matrix.mul_apply, sq]

/-- A square rational matrix of full rank has invertible determinant. -/
theorem square_rank_isUnit {n : ℕ} (B : Matrix (Fin n) (Fin n) ℚ) (h : B.rank = n) :
    IsUnit B.det := by
  have h2 := LinearMap.finrank_range_add_finrank_ker B.mulVecLin
  rw [Module.finrank_pi, Fintype.card_fin] at h2
  rw [Matrix.rank] at h
  have hker : Module.finrank ℚ (LinearMap.ker B.mulVecLin) = 0 := by omega
  have hbot : LinearMap.ker B.mulVecLin = ⊥ := Submodule.finrank_eq_zero.mp hker
  have hinj : Function.Injective B.mulVec := by
    rw [← Matrix.coe_mulVecLin]
    exact LinearMap.ker_eq_bot.mp hbot
  exact (Matrix.isUnit_iff_isUnit_det B).mp (Matrix.mulVec_injective_iff_isUnit.mp hinj)

theorem invJ_mul_J_square {M : ℕ} (J : SMatrix M M) (h : IsUnit J.det) :
    invJacobianOf J * J = 1 := by
  rw [invJacobianOf_square, matInv_eq_inv]
  exact Matrix.nonsing_inv_mul J h

theorem J_mul_invJ_square {M : ℕ} (J : SMatrix M M) (h : IsUnit J.det) :
    J * invJacobianOf J = 1 := by
  rw [invJacobianOf_square, matInv_eq_inv]
  exact Matrix.mul_nonsing_inv J h

/-- With a full-column-rank jacobian the cached (pseudo-)inverse is a left
inverse, in both the volume and the manifold branch. -/
theorem invJ_mul_J {M N : ℕ} (J : SMatrix N M) (hrank : J.rank = M) :
    invJacobianOf J * J = 1 := by
  by_cases h : N = M
  · subst h
    exact invJ_mul_J_square J (square_rank_isUnit J hrank)
  · rw [invJacobianOf_manifold h, matInv_eq_inv, Matrix.mul_assoc]
    refine Matrix.nonsing_inv_mul _ (square_rank_isUnit _ ?_)
    rw [Matrix.rank_transpose_mul_self, hrank]

/-- The unit triangle has the identity as barycentric matrix. -/
theorem jacobianOf_coordsTri : jacobianOf coordsTri = 1 := by
  funext i j
  fin_cases i <;> fin_cases j <;> simp [jacobianOf, coordsTri]

theorem det_jacobianOf_coordsTri : (jacobianOf coordsTri).det = 1 := by
  rw [jacobianOf_coordsTri]
  simp

/-- Entry 0 of the barycentric coordinates. -/
theorem bary_zero {M N : ℕ} (e : Element M N) (x : SVector N) :
    e.to_barycentric_coords x 0 = 1 - ∑ i, e.inv_J_.mulVec (x - e.coords_ 0) i :=
  rfl

/-- Entries 1..M of the barycentric coordinates. -/
theorem bary_succ {M N : ℕ} (e : Element M N) (x : SVector N) (i : Fin M) :
    e.to_barycentric_coords x i.succ = e.inv_J_.mulVec (x - e.coords_ 0) i :=
  rfl

/-! The claims. -/

/-- C1: for every volume element (M = N) and every point x in N-space,
`contains(x)` returns true if and only if every entry of
`to_barycentric_coords(x)` is ≥ -10 times the machine epsilon. -/
theorem contains_volume_iff_nonneg_barycentric {M : ℕ} (e : Element M M) (x : SVector M) :
    e.contains_volume x = true ↔ ∀ i, -10 * eps ≤ e.to_barycentric_coords x i := by
  simp [Element.contains_volume]

/-- C2: for every manifold element (M < N) and every point x, `contains(x)`
returns false whenever the distance from x to the element's spanned affine
subspace exceeds 10 times the machine epsilon; otherwise it returns true iff
every entry of `to_barycentric_coords(x)` is ≥ -10 times the machine
epsilon. -/
theorem contains_manifold_spec {M N : ℕ} (_hMN : M < N) (e : Element M N) (x : SVector N) :
    (((10 * eps : ℚ) : ℝ) < e.spanned_space.distance x → e.contains_manifold x = false) ∧
    (e.spanned_space.distance x ≤ ((10 * eps : ℚ) : ℝ) →
      (e.contains_manifold x = true ↔ ∀ i, -10 * eps ≤ e.to_barycentric_coords x i)) := by
  have h0 : (0 : ℝ) ≤ ((10 * eps : ℚ) : ℝ) := by
    rw [Rat.cast_nonneg]
    norm_num [eps]
  constructor
  · intro hd
    have hq : (10 * eps) ^ 2 < e.spanned_space.distanceSq x := by
      rw [VectorSpace.distance] at hd
      have h1 := (Real.lt_sqrt h0).mp hd
      exact_mod_cast h1
    rw [Element.contains_manifold, if_pos hq]
  · intro hd
    have hq : ¬ (10 * eps) ^ 2 < e.spanned_space.distanceSq x := by
      intro hc
      have h1 : ((10 * eps : ℚ) : ℝ) < e.spanned_space.distance x := by
        rw [VectorSpace.distance]
        exact (Real.lt_sqrt h0).mpr (by exact_mod_cast hc)
      linarith
    rw [Element.contains_manifold, if_neg hq]
    simp

theorem contains_manifold_spec_witness :
    (((10 * eps : ℚ) : ℝ) < segElement.spanned_space.distance ![0, 1] →
        segElement.contains_manifold ![0, 1] = false) ∧
    (segElement.spanned_space.distance ![0, 1] ≤ ((10 * eps : ℚ) : ℝ) →
      (segElement.contains_manifold ![0, 1] = true ↔
        ∀ i, -10 * eps ≤ segElement.to_barycentric_coords ![0, 1] i)) :=
  contains_manifold_spec (by norm_num) segElement ![0, 1]

/-- C5: `to_barycentric_coords(x)` is exactly the (M+1)-vector whose first
entry is 1 minus the sum of z and whose remaining entries are z, where
`z = jacobian_inverse · (x - coordinates[0])`; consequently its M+1 entries
sum to 1 in exact arithmetic. -/
theorem to_barycentric_coords_spec {M N : ℕ} (e : Element M N) (x : SVector N) :
    (e.to_barycentric_coords x 0 =
        1 - ∑ j, ∑ k, e.inv_J_ j k * (x k - e.coords_ 0 k)) ∧
    (∀ i : Fin M, e.to_barycentric_coords x i.succ =
        ∑ k, e.inv_J_ i k * (x k - e.coords_ 0 k)) ∧
    ∑ i, e.to_barycentric_coords x i = 1 := by
  refine ⟨?_, fun i => ?_, ?_⟩
  · rw [bary_zero]
    simp [Matrix.mulVec, Matrix.dotProduct]
  · rw [bary_succ]
    simp [Matrix.mulVec, Matrix.dotProduct]
  · rw [Element.to_barycentric_coords, Fin.sum_cons]
    ring

/-- C10: the getter `ID()` returns the stored `std::size_t` identifier
converted to `unsigned int`, i.e. reduced modulo 2³² (32-bit `unsigned int`),
and it equals the constructed identifier exactly when that fits. -/
theorem ID_narrowing {M N : ℕ} (ID : ℕ) (nids : Fin (ct_nvertices M) → ℕ)
    (coords : Fin (ct_nvertices M) → SVector N) (nbrs : List ℤ) (bdry : Bool) :
    (mkElement ID nids coords nbrs bdry).ID = ID % 2 ^ 32 ∧
      ((mkElement ID nids coords nbrs bdry).ID = ID ↔ ID < 2 ^ 32) := by
  refine ⟨rfl, ?_⟩
  show ID % 2 ^ 32 = ID ↔ ID < 2 ^ 32
  have h : (2 : ℕ) ^ 32 = 4294967296 := by norm_num
  rw [h]
  omega

/-- C3: at construction, column j of the jacobian is `coordinates[j+1] -
coordinates[0]`; the cached `jacobian_inverse` is the exact matrix inverse of
the jacobian when M = N and `(Jᵀ J)⁻¹ Jᵀ` when M < N. (In this purely
functional model the element is immutable, so neither cached matrix can be
recomputed afterwards; every getter is a plain field read.) -/
theorem construction_jacobian_and_inverse {M N : ℕ} (ID : ℕ)
    (nids : Fin (ct_nvertices M) → ℕ) (coords : Fin (ct_nvertices M) → SVector N)
    (nbrs : List ℤ) (bdry : Bool) :
    (∀ (i : Fin N) (j : Fin M),
        (mkElement ID nids coords nbrs bdry).J_ i j = coords j.succ i - coords 0 i) ∧
    (∀ h : N = M,
        (mkElement ID nids coords nbrs bdry).inv_J_.submatrix (Fin.cast h) id =
          ((mkElement ID nids coords nbrs bdry).J_.submatrix id (Fin.cast h))⁻¹) ∧
    (M < N →
        (mkElement ID nids coords nbrs bdry).inv_J_ =
          ((mkElement ID nids coords nbrs bdry).J_.transpose *
              (mkElement ID nids coords nbrs bdry).J_)⁻¹ *
            (mkElement ID nids coords nbrs bdry).J_.transpose) := by
  refine ⟨fun i j => rfl, fun h => ?_, fun hMN => ?_⟩
  · subst h
    simp [fin_cast_eq_id, invJacobianOf_square, matInv_eq_inv]
  · simp [invJacobianOf_manifold (show N ≠ M by omega), matInv_eq_inv]

theorem construction_jacobian_and_inverse_witness :
    (triElement.inv_J_.submatrix (Fin.cast rfl) id =
        (triElement.J_.submatrix id (Fin.cast rfl))⁻¹) ∧
    surfElement.inv_J_ =
      (surfElement.J_.transpose * surfElement.J_)⁻¹ * surfElement.J_.transpose :=
  ⟨(construction_jacobian_and_inverse 7 (fun _ => 0) coordsTri [] false).2.1 rfl,
   (construction_jacobian_and_inverse 3 (fun _ => 0) coordsSurf [] true).2.2 (by norm_num)⟩

/-- C4: the cached measure is `|det J| / M!` when M = N, half the Euclidean
norm of the cross product of the two jacobian columns when M = 2 and N = 3,
and the Euclidean norm of the single jacobian column when M = 1 (for M = 1 = N
the determinant branch of the code gives that same value); it is nonnegative
in every case. -/
theorem construction_measure_spec {M N : ℕ} (ID : ℕ)
    (nids : Fin (ct_nvertices M) → ℕ) (coords : Fin (ct_nvertices M) → SVector N)
    (nbrs : List ℤ) (bdry : Bool) :
    (∀ h : M = N,
        (mkElement ID nids coords nbrs bdry).measure =
          |((((mkElement ID nids coords nbrs bdry).J_.submatrix (Fin.cast h) id).det : ℚ) : ℝ)| /
            (Nat.factorial M : ℝ)) ∧
    (∀ (h2 : M = 2) (h3 : N = 3),
        (mkElement ID nids coords nbrs bdry).measure =
          (1 / 2 : ℝ) *
            ‖toEuc (crossProduct
                (fun i => (mkElement ID nids coords nbrs bdry).J_ (Fin.cast h3.symm i)
                  (Fin.cast h2.symm 0))
                (fun i => (mkElement ID nids coords nbrs bdry).J_ (Fin.cast h3.symm i)
                  (Fin.cast h2.symm 1)))‖) ∧
    (∀ h1 : M = 1,
        (mkElement ID nids coords nbrs bdry).measure =
          ‖toEuc (fun i => (mkElement ID nids coords nbrs bdry).J_ i (Fin.cast h1.symm 0))‖) ∧
    0 ≤ (mkElement ID nids coords nbrs bdry).measure := by
  refine ⟨fun h => ?_, fun h2 h3 => ?_, fun h1 => ?_, ?_⟩
  · subst h
    show measureOf (jacobianOf coords) = _
    rw [measureOf_square, ct_factorial_eq, mkElement_J, fin_cast_eq_id, Matrix.submatrix_id_id]
    push_cast
    ring
  · subst h2
    subst h3
    show measureOf (jacobianOf coords) = _
    rw [measureOf_surface, vecNorm_eq_norm_toEuc, crossProd_eq_crossProduct]
    simp [fin_cast_eq_id]
  · subst h1
    show measureOf (jacobianOf coords) = _
    by_cases hN : (1 : ℕ) = N
    · subst hN
      rw [measureOf_square, ← vecNorm_eq_norm_toEuc, mkElement_J, fin_cast_eq_id]
      rw [Matrix.det_fin_one]
      rw [vecNorm, vecNormSq]
      rw [Fin.sum_univ_one]
      push_cast
      rw [Real.sqrt_sq_eq_abs]
      simp [ct_factorial]
    · rw [measureOf_segment hN, ← vecNorm_eq_norm_toEuc, mkElement_J, fin_cast_eq_id]
      simp
  · show 0 ≤ measureOf (jacobianOf coords)
    unfold measureOf
    split_ifs
    · exact Rat.cast_nonneg.mpr (div_nonneg (abs_nonneg _) (Nat.cast_nonneg _))
    · exact mul_nonneg (by norm_num) (vecNorm_nonneg _)
    · exact le_refl 0
    · exact vecNorm_nonneg _
    · exact le_refl 0

theorem construction_measure_spec_witness :
    (triElement.measure =
        |(((triElement.J_.submatrix (Fin.cast rfl) id).det : ℚ) : ℝ)| / (Nat.factorial 2 : ℝ)) ∧
    (segElement.measure = ‖toEuc (fun i => segElement.J_ i (Fin.cast rfl 0))‖) ∧
    0 ≤ surfElement.measure :=
  ⟨(construction_measure_spec 7 (fun _ => 0) coordsTri [] false).1 rfl,
   (construction_measure_spec 5 (fun _ => 0) coordsSeg [] false).2.2.1 rfl,
   (construction_measure_spec 3 (fun _ => 0) coordsSurf [] true).2.2.2⟩

/-- C6: for an element whose jacobian has full column rank M, mapping vertex i
through `to_barycentric_coords` yields the one-hot vector with 1 at position i
and 0 elsewhere, in exact arithmetic. -/
theorem to_barycentric_vertex_one_hot {M N : ℕ} (ID : ℕ)
    (nids : Fin (ct_nvertices M) → ℕ) (coords : Fin (ct_nvertices M) → SVector N)
    (nbrs : List ℤ) (bdry : Bool)
    (hrank : (mkElement ID nids coords nbrs bdry).J_.rank = M) (i : Fin (ct_nvertices M)) :
    (mkElement ID nids coords nbrs bdry).to_barycentric_coords (coords i) = Pi.single i 1 := by
  rw [mkElement_J] at hrank
  have hinv := invJ_mul_J _ hrank
  refine Fin.cases ?_ ?_ i
  · funext k
    refine Fin.cases ?_ ?_ k
    · rw [bary_zero]
      simp
    · intro l
      rw [bary_succ]
      simp [Pi.single_apply, Fin.succ_ne_zero]
  · intro j
    have hcol : coords j.succ - coords 0 = (jacobianOf coords).mulVec (Pi.single j 1) := by
      funext i0
      simp [jacobianOf]
    funext k
    refine Fin.cases ?_ ?_ k
    · rw [bary_zero]
      simp only [mkElement_invJ, mkElement_coords]
      rw [hcol, Matrix.mulVec_mulVec, hinv, Matrix.one_mulVec]
      simp [Finset.sum_pi_single', Pi.single_apply, (Fin.succ_ne_zero j).symm]
    · intro l
      rw [bary_succ]
      simp only [mkElement_invJ, mkElement_coords]
      rw [hcol, Matrix.mulVec_mulVec, hinv, Matrix.one_mulVec]
      simp [Pi.single_apply, Fin.succ_inj]

theorem to_barycentric_vertex_one_hot_witness :
    triElement.to_barycentric_coords (coordsTri 1) = Pi.single 1 1 :=
  to_barycentric_vertex_one_hot 7 (fun _ => 0) coordsTri [] false
    (by rw [mkElement_J, jacobianOf_coordsTri]; simp) 1

/-- C7: for a volume element (M = N) with invertible jacobian, mapping the
last M barycentric coordinates of any point x back through the jacobian and
adding `coordinates[0]` reproduces x, in exact arithmetic. -/
theorem volume_roundtrip {M : ℕ} (ID : ℕ)
    (nids : Fin (ct_nvertices M) → ℕ) (coords : Fin (ct_nvertices M) → SVector M)
    (nbrs : List ℤ) (bdry : Bool)
    (hdet : (mkElement ID nids coords nbrs bdry).J_.det ≠ 0) (x : SVector M) :
    (mkElement ID nids coords nbrs bdry).J_.mulVec
        (fun j => (mkElement ID nids coords nbrs bdry).to_barycentric_coords x j.succ) +
      (mkElement ID nids coords nbrs bdry).coords_ 0 = x := by
  rw [mkElement_J] at hdet
  have hJi := J_mul_invJ_square (jacobianOf coords) (isUnit_iff_ne_zero.mpr hdet)
  have hz : (fun j => (mkElement ID nids coords nbrs bdry).to_barycentric_coords x j.succ) =
      (invJacobianOf (jacobianOf coords)).mulVec (x - coords 0) := by
    funext j
    rw [bary_succ, mkElement_invJ, mkElement_coords]
  rw [hz, mkElement_J, mkElement_coords, Matrix.mulVec_mulVec, hJi, Matrix.one_mulVec]
  funext i
  simp

theorem volume_roundtrip_witness :
    triElement.J_.mulVec
        (fun j => triElement.to_barycentric_coords ![1 / 3, 1 / 3] j.succ) +
      triElement.coords_ 0 = ![1 / 3, 1 / 3] :=
  volume_roundtrip 7 (fun _ => 0) coordsTri [] false
    (by rw [mkElement_J, det_jacobianOf_coordsTri]; norm_num) ![1 / 3, 1 / 3]

/-- C8: for a non-degenerate volume element, `mid_point()` is the jacobian
image of the constant barycentric vector 1/(M+1) offset by `coordinates[0]`,
its barycentric coordinates are all equal to 1/(M+1), and it is contained in
the element. -/
theorem mid_point_spec {M : ℕ} (ID : ℕ)
    (nids : Fin (ct_nvertices M) → ℕ) (coords : Fin (ct_nvertices M) → SVector M)
    (nbrs : List ℤ) (bdry : Bool)
    (hdet : (mkElement ID nids coords nbrs bdry).J_.det ≠ 0) :
    ((mkElement ID nids coords nbrs bdry).mid_point =
        (mkElement ID nids coords nbrs bdry).J_.mulVec (fun _ => 1 / ((M : ℚ) + 1)) +
          (mkElement ID nids coords nbrs bdry).coords_ 0) ∧
    ((mkElement ID nids coords nbrs bdry).to_barycentric_coords
        ((mkElement ID nids coords nbrs bdry).mid_point) = fun _ => 1 / ((M : ℚ) + 1)) ∧
    (mkElement ID nids coords nbrs bdry).contains_volume
        ((mkElement ID nids coords nbrs bdry).mid_point) = true := by
  rw [mkElement_J] at hdet
  have hinv := invJ_mul_J_square (jacobianOf coords) (isUnit_iff_ne_zero.mpr hdet)
  have hM : ((M : ℚ) + 1) ≠ 0 := by positivity
  have key : (mkElement ID nids coords nbrs bdry).to_barycentric_coords
      ((mkElement ID nids coords nbrs bdry).mid_point) = fun _ => 1 / ((M : ℚ) + 1) := by
    funext k
    refine Fin.cases ?_ ?_ k
    · rw [bary_zero]
      simp only [mkElement_invJ, mkElement_coords, Element.mid_point, mkElement_J]
      rw [add_sub_cancel_right, Matrix.mulVec_mulVec, hinv, Matrix.one_mulVec]
      rw [Finset.sum_const, Finset.card_univ, Fintype.card_fin, nsmul_eq_mul]
      field_simp
    · intro l
      rw [bary_succ]
      simp only [mkElement_invJ, mkElement_coords, Element.mid_point, mkElement_J]
      rw [add_sub_cancel_right, Matrix.mulVec_mulVec, hinv, Matrix.one_mulVec]
  refine ⟨rfl, key, ?_⟩
  rw [Element.contains_volume, key]
  simp only [decide_eq_true_eq]
  intro i
  have h1 : (0 : ℚ) < 1 / ((M : ℚ) + 1) := by positivity
  have h2 : -10 * eps < 0 := by norm_num [eps]
  linarith

theorem mid_point_spec_witness :
    (triElement.mid_point =
        triElement.J_.mulVec (fun _ => 1 / ((2 : ℚ) + 1)) + triElement.coords_ 0) ∧
    (triElement.to_barycentric_coords triElement.mid_point = fun _ => 1 / ((2 : ℚ) + 1)) ∧
    triElement.contains_volume triElement.mid_point = true :=
  mid_point_spec 7 (fun _ => 0) coordsTri [] false
    (by rw [mkElement_J, det_jacobianOf_coordsTri]; norm_num)

/-- C9: constructing a second element from the same vertex coordinates listed
in any permuted order yields the same `measure()` value, in exact arithmetic
(proved for every element, so in particular for the non-degenerate ones the
claim quantifies over). -/
theorem measure_perm_invariant {M N : ℕ} (ID1 ID2 : ℕ)
    (nids1 nids2 : Fin (ct_nvertices M) → ℕ) (coords : Fin (ct_nvertices M) → SVector N)
    (σ : Equiv.Perm (Fin (ct_nvertices M))) (nbrs1 nbrs2 : List ℤ) (bdry1 bdry2 : Bool) :
    (mkElement ID2 nids2 (fun i => coords (σ i)) nbrs2 bdry2).measure =
      (mkElement ID1 nids1 coords nbrs1 bdry1).measure := by
  show measureOf (jacobianOf fun i => coords (σ i)) = measureOf (jacobianOf coords)
  by_cases h : M = N
  · subst h
    rw [measureOf_square, measureOf_square]
    congr 2
    rw [abs_det_jacobian_perm]
  · by_cases h2 : M = 2
    · subst h2
      by_cases h3 : N = 3
      · subst h3
        rw [measureOf_surface, measureOf_surface]
        congr 1
        rw [vecNorm, vecNorm]
        congr 1
        norm_cast
        rw [crossNormSq_eq_gram_det, crossNormSq_eq_gram_det, gram_det_perm]
      · rw [measureOf_default2 (by omega) h3, measureOf_default2 (by omega) h3]
    · by_cases h1 : M = 1
      · subst h1
        rw [measureOf_segment (by omega), measureOf_segment (by omega)]
        rw [vecNorm, vecNorm]
        congr 1
        norm_cast
        rw [colNormSq_eq_gram_det, colNormSq_eq_gram_det, gram_det_perm]
      · rw [measureOf_default h h2 h1, measureOf_default h h2 h1]

end FdaPDE
